import Mathlib

/-!
Shallow embedding of the kokoro-tui core pipeline:
the shared value types (`src/lib/agents/__init__.py`), the playback worker's
command handlers (`src/lib/agents/sound.py`), the synthesis worker's emission
loop (`src/lib/agents/kokoro.py`), and the orchestration fencing layer
(`src/main.py`).  Python ints are modelled as `ℤ` (or `ℕ` where the source
only ever produces non-negative values), floats as `ℚ`, strings as
`List Char`, and code that can raise an uncaught exception returns `Option`.
-/

namespace KokoroTui

/-- Python `int(x)` on a float: truncation toward zero.  On a reduced
fraction this is the T-division of the numerator by the denominator. -/
def pyInt (q : ℚ) : ℤ := q.num.tdiv q.den

/-- Python list subscript `l[i]`, including negative-index semantics:
`l[-k]` is `l[len l - k]` when `k ≤ len l`; out-of-range access raises
(`none`). -/
def pyListGet {α : Type} (l : List α) (i : ℤ) : Option α :=
  if 0 ≤ i then l.get? i.toNat
  else if (-i).toNat ≤ l.length then l.get? (l.length - (-i).toNat)
  else none

/-- Python list item assignment `l[i] = a`, including negative-index
semantics; out-of-range assignment raises (`none`). -/
def pyListSet {α : Type} (l : List α) (i : ℤ) (a : α) : Option (List α) :=
  if 0 ≤ i then
    if i.toNat < l.length then some (l.set i.toNat a) else none
  else if (-i).toNat ≤ l.length then some (l.set (l.length - (-i).toNat) a)
  else none

/-- Candidate-position scan for `pyFindFrom`: try positions `start`,
`start + 1`, … while fuel lasts. -/
def pyFindFromAux (s sub : List Char) : ℕ → ℕ → ℤ
  | _, 0 => -1
  | start, fuel + 1 =>
    if start + sub.length ≤ s.length ∧ sub.isPrefixOf (s.drop start) then
      (start : ℤ)
    else pyFindFromAux s sub (start + 1) fuel

/-- Python `haystack.find(needle, start)`: index of the leftmost occurrence
of `needle` in `haystack` at or after `start`, or `-1` when there is none
(also when `start > len haystack`). -/
def pyFindFrom (s sub : List Char) (start : ℕ) : ℤ :=
  pyFindFromAux s sub start (s.length + 1 - start)

/-! ## `src/lib/agents/__init__.py` : shared value types -/

def SAMPLE_RATE : ℕ := 24000

/-- Alignment record mapping a text span to a sample span (`Token`). -/
structure Token where
  text_index_start : ℤ
  text_index_end : ℤ
  start_index : ℤ
  end_index : ℤ
deriving DecidableEq, Repr

/-- `Token.offset`: shift the sample span by `audio_offset` (the Python
method mutates in place and returns `self`; here it returns the shifted
token). -/
def Token.offset (t : Token) (audio_offset : ℤ) : Token :=
  { t with
    start_index := t.start_index + audio_offset
    end_index := t.end_index + audio_offset }

/-- Audio chunk / track: a sample buffer plus its alignment tokens. -/
structure Audio where
  data : List ℚ
  tokens : List Token
deriving DecidableEq, Repr

/-- `Audio.concat`: extend the token list with the other chunk's tokens
shifted by the current sample length, then concatenate the sample data. -/
def Audio.concat (a other : Audio) : Audio :=
  { tokens := a.tokens ++ other.tokens.map (fun t => t.offset (a.data.length : ℤ))
    data := a.data ++ other.data }

/-! ## `src/lib/agents/sound.py` : playback worker -/

/-- Playback worker state: the track history (`_data`), selected track
(`_track_index`, `-1` meaning "no track"), position sync point
(`_start_index`, `_start_timestamp`), and the highlight state
(`_token_index` scan cursor plus the shared `text_indices` record). -/
structure SoundState where
  data : List Audio
  track_index : ℤ
  start_index : ℤ
  start_timestamp : Option ℚ
  token_index : ℕ
  text_start : ℤ
  text_end : ℤ
deriving DecidableEq, Repr

/-- Device handle passed to the `apply` handlers: `none` models
`player = None`; `some q` models a live player whose pending sample queue is
`q` (`player._queue`; `player.play(d)` appends `d`). -/
abbrev Player := Option (List ℚ)

/-- `SoundAgent._get_data`: sample buffer of the selected track; the Python
subscript raises `IndexError` (`none`) when the index is out of range. -/
def SoundState.getData (st : SoundState) : Option (List ℚ) :=
  (pyListGet st.data st.track_index).map Audio.data

/-- `SoundAgent._current_index`: the effective playback position at
wall-clock time `now`. -/
def SoundState.currentIndex (st : SoundState) (now : ℚ) : ℤ :=
  match st.start_timestamp with
  | none => st.start_index
  | some ts => st.start_index + pyInt ((now - ts) * (SAMPLE_RATE : ℚ))

/-- `SoundAgent._seek_and_play`: clamp the requested position to
`[0, track length]`; when the clamped position is strictly inside the
selected track and a player is live, resync the timestamp to `now` and
(after clearing the queue when `clear` is set) enqueue the track's samples
from that position onward.  When the clamped position reaches the track
length the state keeps its previous timestamp and the player is untouched. -/
def seekAndPlay (st : SoundState) (now : ℚ) (start_index : ℤ)
    (player : Player) (clear : Bool := true) : Option (SoundState × Player) :=
  let si := if start_index < 0 then 0 else start_index
  match pyListGet st.data st.track_index with
  | none => none
  | some track =>
    let n : ℤ := track.data.length
    if n ≤ si then some ({ st with start_index := n }, player)
    else
      match player with
      | none => some ({ st with start_index := si }, none)
      | some q =>
        some ({ st with start_index := si, start_timestamp := some now },
          some ((if clear then [] else q) ++ track.data.drop si.toNat))

/-- `DataInput.apply`: route a fed chunk into the track history — create a
new track (then select it and restart from 0), fully overwrite (then restart
from 0), or append-concatenate (also queueing the new samples on a live
player without restarting). -/
def dataInputApply (chunk : Audio) (index : ℤ) (overwrite : Bool)
    (st : SoundState) (now : ℚ) (player : Player) :
    Option (SoundState × Player) :=
  let n := st.data.length
  if (n : ℤ) ≤ index then
    seekAndPlay { st with data := st.data ++ [chunk], track_index := n } now 0 player
  else if overwrite then
    match pyListSet st.data index chunk with
    | none => none
    | some d => seekAndPlay { st with data := d } now 0 player
  else
    match pyListGet st.data index with
    | none => none
    | some tr =>
      match pyListSet st.data index (tr.concat chunk) with
      | none => none
      | some d =>
        some ({ st with data := d }, player.map (fun q => q ++ chunk.data))

/-- `ChangeTrack.apply`: select `history_length - 1` when the requested
index is at least the history length, else the requested index itself; then
seek to position 0 on the newly selected track. -/
def changeTrackApply (index : ℤ) (st : SoundState) (now : ℚ)
    (player : Player) : Option (SoundState × Player) :=
  let st1 :=
    if (st.data.length : ℤ) ≤ index then
      { st with track_index := (st.data.length : ℤ) - 1 }
    else { st with track_index := index }
  seekAndPlay st1 now 0 player

/-- `SeekSecs.apply`: no-op when no track is selected; otherwise seek to
`start_index` plus the seconds delta converted to samples — measured from
the live effective position when streaming (where `assert player is not
None` fails, `none`, when there is no player). -/
def seekSecsApply (secs : ℚ) (st : SoundState) (now : ℚ)
    (player : Player) : Option (SoundState × Player) :=
  if st.track_index < 0 then some (st, player)
  else
    match st.start_timestamp with
    | none =>
      seekAndPlay st now (pyInt (secs * (SAMPLE_RATE : ℚ)) + st.start_index) player
    | some ts =>
      match player with
      | none => none
      | some _ =>
        seekAndPlay st now
          (pyInt ((now - ts + secs) * (SAMPLE_RATE : ℚ)) + st.start_index) player

/-- `ClearHistory.apply`: drop all tracks, reset the position sync point and
deselect (`_token_index` and the shared highlight record are not touched). -/
def clearHistoryApply (st : SoundState) (player : Player) :
    SoundState × Player :=
  ({ st with data := [], start_index := 0, start_timestamp := none,
             track_index := -1 }, player)

/-- `SoundAgent._reset_text_indices`: clear the scan cursor and publish the
cleared `(-1, -1)` range. -/
def SoundState.resetTextIndices (st : SoundState) : SoundState :=
  { st with token_index := 0, text_start := -1, text_end := -1 }

/-- Scan (as `enumerate` does, counting from the given base) for the first
token whose `[start_index, end_index]` sample interval contains `idx`. -/
def findToken (idx : ℤ) : List Token → ℕ → Option (ℕ × Token)
  | [], _ => none
  | t :: ts, i =>
    if t.start_index ≤ idx ∧ idx ≤ t.end_index then some (i, t)
    else findToken idx ts (i + 1)

/-- `SoundAgent._update_text_indices`: starting from the last matched token
(`_token_index`), publish the text range of the first token whose sample
interval contains the effective position, advancing the cursor to it; when
no token matches, reset cursor and publish the cleared range.  The Python
method asserts a live timestamp and subscripts `_data[_track_index]`. -/
def updateTextIndices (st : SoundState) (now : ℚ) : Option SoundState :=
  match st.start_timestamp with
  | none => none
  | some _ =>
    match pyListGet st.data st.track_index with
    | none => none
    | some track =>
      let index := st.currentIndex now
      match findToken index (track.tokens.drop st.token_index) 0 with
      | some (i, tok) =>
        some { st with text_start := tok.text_index_start,
                       text_end := tok.text_index_end,
                       token_index := st.token_index + i }
      | none => some st.resetTextIndices

/-- `SoundAgent.get_text_indices` decoding of the shared record: a pair of
non-negative indices is a highlight range, anything else is `None`. -/
def publishedRange (st : SoundState) : Option (ℤ × ℤ) :=
  if 0 ≤ st.text_start ∧ 0 ≤ st.text_end then some (st.text_start, st.text_end)
  else none

/-- Fold a sequence of `feed(chunk, index, overwrite=False)` commands over
the worker state. -/
def applyFeedSeq (index : ℤ) (now : ℚ) :
    List Audio → SoundState × Player → Option (SoundState × Player)
  | [], sp => some sp
  | c :: cs, (st, player) =>
    match dataInputApply c index false st now player with
    | none => none
    | some sp => applyFeedSeq index now cs sp

/-- Tokens of a sequence of appended chunks, each chunk's tokens shifted by
the cumulative sample length of everything appended before it. -/
def shiftedTokens : ℤ → List Audio → List Token
  | _, [] => []
  | off, c :: cs =>
    c.tokens.map (fun t => t.offset off) ++
      shiftedTokens (off + c.data.length) cs

/-! ## `src/lib/agents/kokoro.py` : synthesis worker -/

/-- Synthesis worker configuration (`Config`). -/
structure Config where
  voice : List Char
  speed : ℚ
  split_pattern : List Char
  trf : Bool
  device : Option (List Char)
deriving DecidableEq, Repr

/-- `Config.lang_code`: `self.voice[0]` — raises `IndexError` (`none`) on an
empty voice string. -/
def Config.lang_code (c : Config) : Option Char := c.voice.get? 0

/-- `Config.compare_pipeline`: pipeline equivalence — equal `lang_code`,
`trf` and `device`; evaluating a `lang_code` raises on an empty voice
string, so the comparison itself raises (`none`) when either voice is
empty. -/
def Config.compare_pipeline (c other : Config) : Option Bool :=
  match c.lang_code, other.lang_code with
  | some a, some b =>
    some (a == b && c.trf == other.trf && c.device == other.device)
  | _, _ => none

/-- Token record yielded by the engine (an element of `r.tokens`):
engine-local text, trailing whitespace, and optional timestamps in
seconds. -/
structure EngineToken where
  text : List Char
  whitespace : List Char
  start_ts : Option ℚ
  end_ts : Option ℚ
deriving DecidableEq, Repr

/-- One yield `r` of the engine's streaming generator: optional audio
samples and optional token metadata. -/
structure GenResult where
  audio : Option (List ℚ)
  tokens : Option (List EngineToken)
deriving DecidableEq, Repr

/-- Output record of the synthesis worker (`KokoroAgent.Output`). -/
structure KOutput where
  audio : Audio
  index : ℤ
  generation : ℤ
  overwrite : Bool
deriving DecidableEq, Repr

/-- Token emitted for one engine token laid out at local anchor `a1` in a
request with base offset `off`: present only when both timestamps are, with
the text span `[a1 + off, a1 + len(text) + off]` and the timestamps
converted to sample indices by `int(ts * SAMPLE_RATE)`. -/
def emittedToken (off a1 : ℕ) (tok : EngineToken) : List Token :=
  match tok.start_ts, tok.end_ts with
  | some s, some e =>
    [⟨(a1 + off : ℕ), (a1 + tok.text.length + off : ℕ),
      pyInt (s * (SAMPLE_RATE : ℚ)), pyInt (e * (SAMPLE_RATE : ℚ))⟩]
  | _, _ => []

/-- Per-request token-offset translation (`KokoroAgent._run`, the loop over
`r.tokens`): locate each engine token's text in the submitted text by a
forward search from the running anchor (`text_index_start`), keep the
previous anchor when the search fails, emit a `Token` (at the anchor plus
the request's base offset `off`) only when both timestamps are present, and
advance the anchor past the token's text and trailing whitespace.  Returns
the emitted tokens together with the final anchor. -/
def translateTokens (text : List Char) (off : ℕ) :
    ℕ → List EngineToken → List Token × ℕ
  | anchor, [] => ([], anchor)
  | anchor, tok :: toks =>
    let i := pyFindFrom text tok.text anchor
    let a1 := if 0 ≤ i then i.toNat else anchor
    let rest :=
      translateTokens text off (a1 + tok.text.length + tok.whitespace.length) toks
    (emittedToken off a1 tok ++ rest.1, rest.2)

/-- The synthesis worker's per-request emission loop (`KokoroAgent._run`,
the loop over the generator): translate token metadata when present
(threading the search anchor even across yields without audio), and for
every yield that carries audio emit an output record whose overwrite flag is
`overwrite and first_chunk`. -/
def emitOutputs (text : List Char) (off : ℕ) (index generation : ℤ)
    (overwrite : Bool) : Bool → ℕ → List GenResult → List KOutput
  | _, _, [] => []
  | first, anchor, r :: rs =>
    let tr := match r.tokens with
      | some ets => translateTokens text off anchor ets
      | none => ([], anchor)
    match r.audio with
    | some a =>
      ⟨⟨a, tr.1⟩, index, generation, overwrite && first⟩ ::
        emitOutputs text off index generation overwrite false tr.2 rs
    | none => emitOutputs text off index generation overwrite first tr.2 rs

/-! ## `src/main.py` : orchestration / fencing layer -/

/-- Fencing state of `KokoroApp`: the generation counter, the submitted
texts (whose count is the history length), and the selected index. -/
structure AppState where
  generation : ℤ
  texts : List (List Char)
  index : ℤ
deriving DecidableEq, Repr

/-- Fencing check in `KokoroApp.kokoro_listener`: a synthesis output chunk
is forwarded to the playback worker iff its generation matches the live one
and its index lies inside the current history. -/
def accepts (st : AppState) (c : KOutput) : Bool :=
  c.generation == st.generation && decide (c.index < (st.texts.length : ℤ))

/-- `KokoroApp.action_clear_history` effect on the fencing state. -/
def appClearHistory (st : AppState) : AppState :=
  { generation := st.generation + 1, index := -1, texts := [] }

/-- `KokoroApp.make_audio` effect on the fencing state: a fresh request (or
an append with nothing selected) selects and appends a new text; an append
joins the new text onto the selected one (the Python subscript assumes the
selected index is in range, which `make_audio` maintains). -/
def appMakeAudio (st : AppState) (text : List Char) (append : Bool) :
    AppState :=
  if !append || st.index < 0 then
    { st with index := (st.texts.length : ℤ), texts := st.texts ++ [text] }
  else
    { st with
      texts := st.texts.set st.index.toNat
        (match st.texts.get? st.index.toNat with
         | some t => t ++ '\n' :: text
         | none => text) }

/-- User-visible orchestration operations that mutate the fencing state:
`make_audio` (new/append), `action_regenerate` (re-feeds the synthesis
worker, fencing state unchanged), `action_clear_history`, and track
selection through `update_selection`. -/
inductive AppOp where
  | makeAudio (text : List Char) (append : Bool)
  | regenerate
  | clearHistory
  | selectTrack (i : ℕ)
deriving DecidableEq, Repr

/-- Fencing-state transition for each orchestration operation. -/
def appStep (st : AppState) : AppOp → AppState
  | .makeAudio text append => appMakeAudio st text append
  | .regenerate => st
  | .clearHistory => appClearHistory st
  | .selectTrack i => { st with index := (i : ℤ) }

/-- Modelled from the spec: Python `round(x)` — round half to even — as
used by the claim's `round(s * sample_rate)`.  On a reduced fraction
`num/den` this compares twice the Euclidean remainder with the
denominator. -/
def pyRound (q : ℚ) : ℤ :=
  let f := q.num / (q.den : ℤ)
  let r := q.num % (q.den : ℤ)
  if 2 * r < (q.den : ℤ) then f
  else if (q.den : ℤ) < 2 * r then f + 1
  else if f % 2 = 0 then f else f + 1

/-- All alignment tokens carried by a list of synthesis output records, in
emission order. -/
def emittedTokens (outs : List KOutput) : List Token :=
  (outs.map (fun o => o.audio.tokens)).flatten

/-- Track of the highlight example in the spec: tokens
`{text 0-5, samples 0-1000}` and `{text 6-10, samples 1000-2000}`. -/
def exampleTrack : Audio := ⟨[], [⟨0, 5, 0, 1000⟩, ⟨6, 10, 1000, 2000⟩]⟩

/-- Worker state playing the example track with effective position `pos`
(timestamp synced at the read instant, so no wall-clock drift). -/
def examplePos (pos : ℤ) : SoundState := ⟨[exampleTrack], 0, pos, some 0, 0, -1, -1⟩

-- sanity checks on the primitive embeddings
example : pyInt ((168 : ℚ) / 100) = 1 := by
  norm_num [pyInt]
  decide
example : pyInt ((-168 : ℚ) / 100) = -1 := by
  norm_num [pyInt]
  decide
example : round ((168 : ℚ) / 100) = 2 := by rw [round_eq]; norm_num
example : pyFindFrom "hello world".data "world".data 0 = 6 := by decide
example : pyFindFrom "hello world".data "xyz".data 0 = -1 := by decide
example : pyFindFrom "aaa".data "".data 4 = -1 := by decide
example : pyListGet [10, 20, 30] (-1) = some 30 := by decide
example : pyListGet ([] : List ℕ) (-1) = none := by decide

/-! ## Helper lemmas -/

/-- Every step of the orchestration layer leaves the generation counter
unchanged or increments it. -/
theorem appStep_generation_le (st : AppState) (op : AppOp) :
    st.generation ≤ (appStep st op).generation := by
  cases op with
  | makeAudio text append =>
    simp only [appStep, appMakeAudio]
    split <;> simp
  | regenerate => simp [appStep]
  | clearHistory => simp [appStep, appClearHistory]
  | selectTrack i => simp [appStep]

/-- The generation counter never decreases across any sequence of
orchestration operations. -/
theorem foldl_appStep_generation_le (st : AppState) (ops : List AppOp) :
    st.generation ≤ (ops.foldl appStep st).generation := by
  induction ops generalizing st with
  | nil => simp
  | cons op ops ih =>
    exact le_trans (appStep_generation_le st op) (ih (appStep st op))

/-- After the first emitted chunk, every output record of a request carries
`overwrite = false`. -/
theorem emitOutputs_false_all_false (text : List Char) (off : ℕ)
    (index generation : ℤ) (ow : Bool) (results : List GenResult) :
    ∀ (anchor : ℕ) (o : KOutput),
      o ∈ emitOutputs text off index generation ow false anchor results →
      o.overwrite = false := by
  induction results with
  | nil => intro anchor o h; simp [emitOutputs] at h
  | cons r rs ih =>
    intro anchor o h
    unfold emitOutputs at h
    rcases hr : r.audio with _ | a <;> rw [hr] at h
    · exact ih _ o h
    · rcases List.mem_cons.mp h with h0 | hmem
      · subst h0; simp
      · exact ih _ o hmem

/-- Under `first = false` every emitted record's flag is `false`. -/
theorem emitOutputs_map_overwrite_false (text : List Char) (off : ℕ)
    (index generation : ℤ) (ow : Bool) (results : List GenResult) :
    ∀ anchor : ℕ,
      (emitOutputs text off index generation ow false anchor results).map
          (fun o => o.overwrite)
        = List.replicate
            (emitOutputs text off index generation ow false anchor results).length
            false := by
  induction results with
  | nil => intro anchor; simp [emitOutputs]
  | cons r rs ih =>
    intro anchor
    simp only [emitOutputs]
    rcases hr : r.audio with _ | a
    · simpa using ih _
    · simp [List.replicate_succ, ih _]

/-- Reading a list at a non-negative Python index is plain list indexing. -/
theorem pyListGet_nonneg {α : Type} (l : List α) (i : ℤ) (h0 : 0 ≤ i) :
    pyListGet l i = l.get? i.toNat := by
  simp [pyListGet, h0]

/-- One append-mode `feed` on an existing track concatenates the chunk onto
that track and leaves the rest of the state's history shape intact. -/
theorem applyFeedSeq_appends (i : ℤ) (now : ℚ) (cs : List Audio) :
    ∀ (st : SoundState) (player : Player) (tr : Audio),
      0 ≤ i → st.data.get? i.toNat = some tr →
      ∃ st' player', applyFeedSeq i now cs (st, player) = some (st', player') ∧
        st'.data.get? i.toNat = some (cs.foldl Audio.concat tr) := by
  induction cs with
  | nil =>
    intro st player tr h0 htr
    exact ⟨st, player, rfl, by simpa using htr⟩
  | cons c cs ih =>
    intro st player tr h0 htr
    obtain ⟨hlt, -⟩ := List.get?_eq_some.mp htr
    have hcond : ¬ ((st.data.length : ℤ) ≤ i) := by omega
    have hget : pyListGet st.data i = some tr := by
      rw [pyListGet_nonneg _ _ h0]; exact htr
    have hset : pyListSet st.data i (tr.concat c)
        = some (st.data.set i.toNat (tr.concat c)) := by
      simp [pyListSet, h0, hlt]
    have hstep : dataInputApply c i false st now player
        = some ({ st with data := st.data.set i.toNat (tr.concat c) },
            player.map (fun q => q ++ c.data)) := by
      simp only [dataInputApply, if_neg hcond, Bool.false_eq_true, if_false,
        hget, hset]
    have hget1 : (st.data.set i.toNat (tr.concat c)).get? i.toNat
        = some (tr.concat c) := List.get?_set_eq_of_lt _ hlt
    obtain ⟨st', player', happ, hfin⟩ :=
      ih { st with data := st.data.set i.toNat (tr.concat c) }
        (player.map (fun q => q ++ c.data)) (tr.concat c) h0 hget1
    refine ⟨st', player', ?_, by simpa using hfin⟩
    simp only [applyFeedSeq, hstep]
    exact happ

/-- Seeking to position 0 with a validly selected track always succeeds and
resets `start_index` to 0, leaving the history and highlight state
untouched. -/
theorem seekAndPlay_zero (st : SoundState) (now : ℚ) (player : Player)
    (tr : Audio) (h : pyListGet st.data st.track_index = some tr) :
    ∃ st' player', seekAndPlay st now 0 player = some (st', player') ∧
      st'.data = st.data ∧ st'.track_index = st.track_index ∧
      st'.start_index = 0 ∧ st'.token_index = st.token_index ∧
      st'.text_start = st.text_start ∧ st'.text_end = st.text_end := by
  by_cases hn : (tr.data.length : ℤ) ≤ 0
  · have h0 : (tr.data.length : ℤ) = 0 := le_antisymm hn (by positivity)
    exact ⟨{ st with start_index := (tr.data.length : ℤ) }, player,
      by simp [seekAndPlay, h, hn], rfl, rfl, h0, rfl, rfl, rfl⟩
  · cases player with
    | none =>
      exact ⟨{ st with start_index := 0 }, none,
        by simp [seekAndPlay, h, hn], rfl, rfl, rfl, rfl, rfl, rfl⟩
    | some q =>
      exact ⟨{ st with start_index := 0, start_timestamp := some now },
        some tr.data, by simp [seekAndPlay, h, hn], rfl, rfl, rfl, rfl, rfl, rfl⟩

/-- Repeated `Audio.concat` appends the sample buffers in order and shifts
each appended chunk's tokens by the cumulative prefix length. -/
theorem foldl_concat_spec (cs : List Audio) (t : Audio) :
    (cs.foldl Audio.concat t).data = t.data ++ (cs.map Audio.data).join ∧
    (cs.foldl Audio.concat t).tokens =
      t.tokens ++ shiftedTokens (t.data.length : ℤ) cs := by
  induction cs generalizing t with
  | nil => simp [shiftedTokens]
  | cons c cs ih =>
    have h := ih (t.concat c)
    rw [List.foldl_cons]
    constructor
    · rw [h.1]
      simp [Audio.concat, List.append_assoc]
    · rw [h.2]
      have hlen : ((t.concat c).data.length : ℤ)
          = (t.data.length : ℤ) + (c.data.length : ℤ) := by
        simp [Audio.concat]
      rw [hlen]
      simp [Audio.concat, shiftedTokens, List.append_assoc]

/-- A successful `findToken` scan returns the first containing token at or
after the scan base, with its offset relative to the base. -/
theorem findToken_some_spec (idx : ℤ) (l : List Token) :
    ∀ (base k : ℕ) (tok : Token), findToken idx l base = some (k, tok) →
      ∃ j, k = base + j ∧ l.get? j = some tok ∧
        tok.start_index ≤ idx ∧ idx ≤ tok.end_index ∧
        ∀ m t', m < j → l.get? m = some t' →
          ¬(t'.start_index ≤ idx ∧ idx ≤ t'.end_index) := by
  induction l with
  | nil => intro base k tok h; simp [findToken] at h
  | cons t l ih =>
    intro base k tok h
    by_cases hc : t.start_index ≤ idx ∧ idx ≤ t.end_index
    · rw [findToken, if_pos hc] at h
      obtain ⟨hk, htok⟩ := Prod.mk.injEq _ _ _ _ ▸ Option.some.injEq _ _ ▸ h
      refine ⟨0, by omega, ?_, ?_, ?_, ?_⟩
      · simp [← htok]
      · rw [← htok]; exact hc.1
      · rw [← htok]; exact hc.2
      · intro m t' hm; omega
    · rw [findToken, if_neg hc] at h
      obtain ⟨j, hj, hget, h1, h2, hmin⟩ := ih (base + 1) k tok h
      refine ⟨j + 1, by omega, by simpa using hget, h1, h2, ?_⟩
      intro m t' hm hget'
      cases m with
      | zero =>
        simp only [List.get?_cons_zero, Option.some.injEq] at hget'
        rw [← hget']; exact hc
      | succ m' =>
        exact hmin m' t' (by omega) (by simpa using hget')

/-- A failed `findToken` scan means no token in the list contains the
position. -/
theorem findToken_none_spec (idx : ℤ) (l : List Token) :
    ∀ base : ℕ, findToken idx l base = none →
      ∀ m t', l.get? m = some t' →
        ¬(t'.start_index ≤ idx ∧ idx ≤ t'.end_index) := by
  induction l with
  | nil => intro base h m t' hget; simp at hget
  | cons t l ih =>
    intro base h m t' hget
    by_cases hc : t.start_index ≤ idx ∧ idx ≤ t.end_index
    · rw [findToken, if_pos hc] at h; exact absurd h (by simp)
    · rw [findToken, if_neg hc] at h
      cases m with
      | zero =>
        simp only [List.get?_cons_zero, Option.some.injEq] at hget
        rw [← hget]; exact hc
      | succ m' => exact ih (base + 1) h m' t' (by simpa using hget)

/-- Full behaviour of `_seek_and_play` (with `clear = True`) on a validly
selected track: the target is clamped below at 0; when the clamped target
reaches the track length the position saturates there with timestamp and
player untouched; otherwise the position moves to the clamped target and a
live player is resynced to `now` with its queue replaced by the track's
samples from the target on. -/
theorem seekAndPlay_spec (st : SoundState) (now : ℚ) (target : ℤ)
    (player : Player) (track : Audio)
    (htrack : pyListGet st.data st.track_index = some track) :
    ∃ st' player', seekAndPlay st now target player = some (st', player') ∧
      st'.data = st.data ∧ st'.track_index = st.track_index ∧
      st'.token_index = st.token_index ∧
      (((track.data.length : ℤ) ≤ max target 0 →
        st'.start_index = (track.data.length : ℤ) ∧
        st'.start_timestamp = st.start_timestamp ∧ player' = player) ∧
      (max target 0 < (track.data.length : ℤ) →
        st'.start_index = max target 0 ∧
        (player = none → st'.start_timestamp = st.start_timestamp ∧
          player' = none) ∧
        (∀ q, player = some q → st'.start_timestamp = some now ∧
          player' = some (track.data.drop (max target 0).toNat)))) := by
  have hsi : (if target < 0 then 0 else target) = max target 0 := by
    split <;> omega
  by_cases hn : (track.data.length : ℤ) ≤ max target 0
  · refine ⟨{ st with start_index := (track.data.length : ℤ) }, player, ?_,
      rfl, rfl, rfl, fun _ => ⟨rfl, rfl, rfl⟩, fun h => absurd hn (by omega)⟩
    simp [seekAndPlay, htrack, hsi, hn]
  · cases player with
    | none =>
      refine ⟨{ st with start_index := max target 0 }, none, ?_,
        rfl, rfl, rfl, fun h => absurd h hn,
        fun _ => ⟨rfl, fun _ => ⟨rfl, rfl⟩, fun q hq => Option.noConfusion hq⟩⟩
      simp [seekAndPlay, htrack, hsi, hn]
    | some q =>
      refine
        ⟨{ st with
            start_index := max target 0
            start_timestamp := some now },
          some (track.data.drop (max target 0).toNat), ?_,
          rfl, rfl, rfl, fun h => absurd h hn,
          fun _ => ⟨rfl, fun h => Option.noConfusion h,
            fun q' hq' => ⟨rfl, rfl⟩⟩⟩
      simp [seekAndPlay, htrack, hsi, hn]

/-- A successful scan (non-negative result) starts at or after the start
position and locates the needle there. -/
theorem pyFindFromAux_spec (s sub : List Char) (fuel : ℕ) :
    ∀ start : ℕ, 0 ≤ pyFindFromAux s sub start fuel →
      (start : ℤ) ≤ pyFindFromAux s sub start fuel ∧
      sub.isPrefixOf
        (List.drop (pyFindFromAux s sub start fuel).toNat s) = true := by
  induction fuel with
  | zero =>
    intro start h
    rw [pyFindFromAux] at h
    exact absurd h (by decide)
  | succ fuel ih =>
    intro start h
    rw [pyFindFromAux] at h ⊢
    by_cases hc : start + sub.length ≤ s.length ∧
        sub.isPrefixOf (s.drop start) = true
    · rw [if_pos hc] at h ⊢
      exact ⟨le_refl _, by simpa using hc.2⟩
    · rw [if_neg hc] at h ⊢
      obtain ⟨h1, h2⟩ := ih (start + 1) h
      exact ⟨le_trans (by omega) h1, h2⟩

/-- `pyFindFrom` really is a forward search: a found position is at or after
the anchor and the needle occurs there. -/
theorem pyFindFrom_forward (s sub : List Char) (start : ℕ)
    (h : 0 ≤ pyFindFrom s sub start) :
    (start : ℤ) ≤ pyFindFrom s sub start ∧
    sub.isPrefixOf (List.drop (pyFindFrom s sub start).toNat s) = true :=
  pyFindFromAux_spec s sub _ start h

/-- Every token produced by `emittedToken` has its text span starting at the
layout anchor plus the base offset. -/
theorem emittedToken_start (off a1 : ℕ) (tok : EngineToken) :
    ∀ t ∈ emittedToken off a1 tok, t.text_index_start = ((a1 + off : ℕ) : ℤ) := by
  intro t ht
  rcases h1 : tok.start_ts with _ | sts <;> rcases h2 : tok.end_ts with _ | ets <;>
    simp only [emittedToken, h1, h2, List.mem_singleton] at ht <;>
    simp at ht
  subst ht
  push_cast
  simp

/-- `emittedToken` yields at most one token, so it is trivially pairwise
ordered. -/
theorem emittedToken_pairwise (off a1 : ℕ) (tok : EngineToken) :
    List.Pairwise (fun a b : Token => a.text_index_start ≤ b.text_index_start)
      (emittedToken off a1 tok) := by
  rcases h1 : tok.start_ts with _ | sts <;> rcases h2 : tok.end_ts with _ | ets <;>
    simp [emittedToken, h1, h2]

/-- The translation anchor only moves forward, every emitted token's span
start lies between the incoming and the final anchor (plus base offset),
and the emitted spans are non-decreasing. -/
theorem translateTokens_mono (text : List Char) (off : ℕ)
    (toks : List EngineToken) :
    ∀ anchor : ℕ,
      anchor ≤ (translateTokens text off anchor toks).2 ∧
      (∀ t ∈ (translateTokens text off anchor toks).1,
        ((off : ℤ) + anchor ≤ t.text_index_start ∧
          t.text_index_start ≤ (off : ℤ) + (translateTokens text off anchor toks).2)) ∧
      List.Pairwise (fun a b : Token => a.text_index_start ≤ b.text_index_start)
        (translateTokens text off anchor toks).1 := by
  induction toks with
  | nil => intro anchor; simp [translateTokens]
  | cons tok toks ih =>
    intro anchor
    simp only [translateTokens]
    set i := pyFindFrom text tok.text anchor with hi
    set a1 := (if 0 ≤ i then i.toNat else anchor) with ha1
    set a2 := a1 + tok.text.length + tok.whitespace.length with ha2
    have ha1_ge : anchor ≤ a1 := by
      rw [ha1]
      split
      · next hpos =>
        have := (pyFindFrom_forward text tok.text anchor (hi ▸ hpos)).1
        omega
      · exact le_refl _
    obtain ⟨ihA, ihB, ihC⟩ := ih a2
    have hemit : ∀ t ∈ emittedToken off a1 tok,
        t.text_index_start = ((a1 + off : ℕ) : ℤ) := emittedToken_start off a1 tok
    refine ⟨by omega, ?_, ?_⟩
    · intro t ht
      rcases List.mem_append.mp ht with hmem | hmem
      · rw [hemit t hmem]
        constructor
        · push_cast
          omega
        · have := ihA
          push_cast
          omega
      · obtain ⟨hlow, hhigh⟩ := ihB t hmem
        refine ⟨?_, hhigh⟩
        have : ((off : ℤ) + a2 ≤ t.text_index_start) := hlow
        push_cast at this ⊢
        omega
    · rw [List.pairwise_append]
      refine ⟨emittedToken_pairwise off a1 tok, ihC, ?_⟩
      intro a ha b hb
      rw [hemit a ha]
      have := (ihB b hb).1
      push_cast at this ⊢
      omega

/-- Across a whole request the emitted alignment tokens keep span starts at
or after the incoming anchor and non-decreasing, even though yields without
audio drop their tokens while still advancing the anchor. -/
theorem emitOutputs_tokens_mono (text : List Char) (off : ℕ)
    (index generation : ℤ) (ow : Bool) (results : List GenResult) :
    ∀ (first : Bool) (anchor : ℕ),
      (∀ t ∈ emittedTokens
          (emitOutputs text off index generation ow first anchor results),
        (off : ℤ) + anchor ≤ t.text_index_start) ∧
      List.Pairwise (fun a b : Token => a.text_index_start ≤ b.text_index_start)
        (emittedTokens
          (emitOutputs text off index generation ow first anchor results)) := by
  induction results with
  | nil => intro first anchor; simp [emitOutputs, emittedTokens]
  | cons r rs ih =>
    intro first anchor
    simp only [emitOutputs]
    rcases hr : r.audio with _ | a <;>
      rcases htk : r.tokens with _ | ets
    · simpa using ih first anchor
    · obtain ⟨m1, -, -⟩ := translateTokens_mono text off ets anchor
      obtain ⟨ihA, ihB⟩ := ih first (translateTokens text off anchor ets).2
      refine ⟨?_, ihB⟩
      intro t ht
      have := ihA t ht
      push_cast at this ⊢
      omega
    · obtain ⟨ihA, ihB⟩ := ih false anchor
      refine ⟨?_, ?_⟩
      · intro t ht
        simp only [emittedTokens, List.map_cons, List.flatten_cons] at ht
        rcases List.mem_append.mp ht with hmem | hmem
        · simp at hmem
        · exact ihA t hmem
      · simp only [emittedTokens, List.map_cons, List.flatten_cons]
        rw [List.pairwise_append]
        exact ⟨by simp, ihB, by simp⟩
    · obtain ⟨m1, m2, m3⟩ := translateTokens_mono text off ets anchor
      obtain ⟨ihA, ihB⟩ := ih false (translateTokens text off anchor ets).2
      refine ⟨?_, ?_⟩
      · intro t ht
        simp only [emittedTokens, List.map_cons, List.flatten_cons] at ht
        rcases List.mem_append.mp ht with hmem | hmem
        · exact (m2 t hmem).1
        · have := ihA t hmem
          push_cast at this ⊢
          omega
      · simp only [emittedTokens, List.map_cons, List.flatten_cons]
        rw [List.pairwise_append]
        refine ⟨m3, ihB, ?_⟩
        intro a ha b hb
        have h1 := (m2 a ha).2
        have h2 := ihA b hb
        push_cast at h1 h2 ⊢
        omega

/-! ## Claims -/

/-- C9: a `seek_secs` request received while no track is selected
(`_track_index < 0`) leaves the playback worker's entire state — track
history, `start_index`, `start_timestamp`, selected track index, and the
highlight state — and the player unchanged. -/
theorem seekSecs_noTrack_frame (secs : ℚ) (st : SoundState) (now : ℚ)
    (player : Player) (h : st.track_index < 0) :
    seekSecsApply secs st now player = some (st, player) := by
  simp [seekSecsApply, h]

/-- C9 witness: the no-track frame property at a concrete state. -/
theorem seekSecs_noTrack_frame_witness :
    (⟨[], -1, 0, none, 0, -1, -1⟩ : SoundState).track_index < 0 ∧
      seekSecsApply 5 ⟨[], -1, 0, none, 0, -1, -1⟩ 0 none =
        some (⟨[], -1, 0, none, 0, -1, -1⟩, none) :=
  ⟨by decide, seekSecs_noTrack_frame 5 ⟨[], -1, 0, none, 0, -1, -1⟩ 0 none (by decide)⟩

/-- C10: when the voice string is non-empty, `lang_code` returns its first
character and `compare_pipeline` is well-defined (given the other config's
voice is also non-empty); with an empty voice string `lang_code` — and hence
`compare_pipeline` — fails on the out-of-bounds index instead of returning a
value. -/
theorem langCode_firstChar_or_raises (a b : Config) :
    (a.voice ≠ [] →
      a.lang_code = some a.voice.headI ∧
        (b.voice ≠ [] → (a.compare_pipeline b).isSome = true)) ∧
    (a.voice = [] → a.lang_code = none ∧ a.compare_pipeline b = none) := by
  constructor
  · intro ha
    rcases hv : a.voice with _ | ⟨c, cs⟩
    · exact absurd hv ha
    · constructor
      · simp [Config.lang_code, hv]
      · intro hb
        rcases hw : b.voice with _ | ⟨d, ds⟩
        · exact absurd hw hb
        · simp [Config.compare_pipeline, Config.lang_code, hv, hw]
  · intro ha
    constructor
    · simp [Config.lang_code, ha]
    · simp [Config.compare_pipeline, Config.lang_code, ha]

/-- C10 witness: concrete voices `"af"` and `""`. -/
theorem langCode_firstChar_or_raises_witness :
    (⟨['a', 'f'], 1, ['\n'], false, none⟩ : Config).voice ≠ [] ∧
      (⟨['a', 'f'], 1, ['\n'], false, none⟩ : Config).lang_code = some 'a' ∧
      ((⟨[], 1, ['\n'], false, none⟩ : Config).lang_code = none) := by
  refine ⟨by decide, ?_, ?_⟩
  · exact (((langCode_firstChar_or_raises ⟨['a', 'f'], 1, ['\n'], false, none⟩
      ⟨['a', 'f'], 1, ['\n'], false, none⟩).1 (by decide)).1)
  · exact (((langCode_firstChar_or_raises ⟨[], 1, ['\n'], false, none⟩
      ⟨['a', 'f'], 1, ['\n'], false, none⟩).2 rfl).1)

/-- C2: the orchestration layer forwards a synthesis chunk iff its
generation equals the live generation counter and its index is strictly
below the history length; and because `clear_history` increments the
generation counter and no operation ever decreases it, a chunk tagged with a
pre-clear generation is rejected by the fence after the clear, whatever
operations follow. -/
theorem fencing_accepts_iff_and_drops_preclear :
    (∀ (st : AppState) (c : KOutput),
      accepts st c = true ↔
        c.generation = st.generation ∧ c.index < (st.texts.length : ℤ)) ∧
    (∀ (st : AppState) (c : KOutput) (ops : List AppOp),
      c.generation ≤ st.generation →
      accepts (ops.foldl appStep (appClearHistory st)) c = false) := by
  constructor
  · intro st c
    simp [accepts]
  · intro st c ops hc
    have h1 : st.generation + 1 ≤ (ops.foldl appStep (appClearHistory st)).generation := by
      have := foldl_appStep_generation_le (appClearHistory st) ops
      simpa [appClearHistory] using this
    have hne : c.generation ≠ (ops.foldl appStep (appClearHistory st)).generation := by
      have : c.generation < (ops.foldl appStep (appClearHistory st)).generation :=
        lt_of_le_of_lt hc (lt_of_lt_of_le (by omega) h1)
      exact ne_of_lt this
    simp [accepts, hne]

/-- C2 witness: a pre-clear chunk is dropped even after the history is
refilled by a later `make_audio`. -/
theorem fencing_accepts_iff_and_drops_preclear_witness :
    (⟨⟨[], []⟩, 0, 0, false⟩ : KOutput).generation ≤
        (⟨0, [['h', 'i']], 0⟩ : AppState).generation ∧
      accepts ([AppOp.makeAudio ['h', 'i'] false].foldl appStep
        (appClearHistory ⟨0, [['h', 'i']], 0⟩)) ⟨⟨[], []⟩, 0, 0, false⟩ = false :=
  ⟨by decide,
    (fencing_accepts_iff_and_drops_preclear).2 ⟨0, [['h', 'i']], 0⟩
      ⟨⟨[], []⟩, 0, 0, false⟩ [AppOp.makeAudio ['h', 'i'] false] (by decide)⟩

/-- C3: for every synthesis request, the flag sequence of its emitted output
records is `overwrite, false, false, …`: only the first emitted record of an
`overwrite = true` request carries `true`, every later record of the same
request carries `false`, and with `overwrite = false` every record carries
`false`. -/
theorem overwrite_flag_only_first_emitted (text : List Char) (off : ℕ)
    (index generation : ℤ) (ow : Bool) (results : List GenResult)
    (anchor : ℕ) :
    (emitOutputs text off index generation ow true anchor results).map
        (fun o => o.overwrite)
      = match emitOutputs text off index generation ow true anchor results with
        | [] => []
        | _ :: t => ow :: List.replicate t.length false := by
  induction results generalizing anchor with
  | nil => simp [emitOutputs]
  | cons r rs ih =>
    simp only [emitOutputs]
    rcases hr : r.audio with _ | a
    · exact ih _
    · simp [emitOutputs_map_overwrite_false]

/-- C5 counterexample: on an empty history `change_track(0)` does not leave
a clean "no track selected" state — after storing `-1` as the selected
index, the position reset subscripts the empty history (`self._data[-1]`
inside `_get_data`) and raises `IndexError`, so the request produces no
resulting worker state at all. -/
theorem changeTrack_emptyHistory_raises :
    changeTrackApply 0 ⟨[], -1, 0, none, 0, -1, -1⟩ 0 none = none := by decide

/-- C5 (amended): for a requested index `i ≥ 0`, `change_track(i)` on a
non-empty history selects `history_length - 1` when `i ≥ history_length`
and exactly `i` otherwise, and resets the playback position to 0; on an
empty history the request instead fails with an uncaught `IndexError`
during the position reset, rather than leaving "no track" selected. -/
theorem changeTrack_clamps_and_resets (i : ℤ) (st : SoundState) (now : ℚ)
    (player : Player) (hi : 0 ≤ i) :
    (st.data = [] → changeTrackApply i st now player = none) ∧
    (st.data ≠ [] → ∃ st' player',
      changeTrackApply i st now player = some (st', player') ∧
      st'.data = st.data ∧
      st'.track_index =
        (if (st.data.length : ℤ) ≤ i then (st.data.length : ℤ) - 1 else i) ∧
      st'.start_index = 0) := by
  constructor
  · intro hempty
    have hcond : (st.data.length : ℤ) ≤ i := by
      rw [hempty]; simpa using hi
    have hnone : pyListGet st.data ((st.data.length : ℤ) - 1) = none := by
      rw [hempty]; rfl
    simp only [changeTrackApply, if_pos hcond]
    unfold seekAndPlay
    simp [hnone]
  · intro hne
    have hlen : 0 < st.data.length := List.length_pos.mpr hne
    by_cases hcond : (st.data.length : ℤ) ≤ i
    · have hlt : ((st.data.length : ℤ) - 1).toNat < st.data.length := by omega
      have hget : pyListGet
          ({ st with track_index := (st.data.length : ℤ) - 1 } : SoundState).data
          ({ st with track_index := (st.data.length : ℤ) - 1 } : SoundState).track_index
          = some (st.data.get ⟨_, hlt⟩) := by
        show pyListGet st.data ((st.data.length : ℤ) - 1) = _
        rw [pyListGet_nonneg _ _ (by omega)]
        exact List.get?_eq_get hlt
      obtain ⟨st', player', happ, hdata, htrack, hstart, -, -, -⟩ :=
        seekAndPlay_zero _ now player _ hget
      refine ⟨st', player', ?_, by simpa using hdata, ?_, hstart⟩
      · simpa [changeTrackApply, if_pos hcond] using happ
      · rw [htrack, if_pos hcond]
    · have hilt : i.toNat < st.data.length := by omega
      have hget : pyListGet
          ({ st with track_index := i } : SoundState).data
          ({ st with track_index := i } : SoundState).track_index
          = some (st.data.get ⟨_, hilt⟩) := by
        show pyListGet st.data i = _
        rw [pyListGet_nonneg _ _ hi]
        exact List.get?_eq_get hilt
      obtain ⟨st', player', happ, hdata, htrack, hstart, -, -, -⟩ :=
        seekAndPlay_zero _ now player _ hget
      refine ⟨st', player', ?_, by simpa using hdata, ?_, hstart⟩
      · simpa [changeTrackApply, if_neg hcond] using happ
      · rw [htrack, if_neg hcond]

/-- C5 witness: two tracks, `change_track(5)` clamps to index 1 and resets
the position. -/
theorem changeTrack_clamps_and_resets_witness :
    ∃ st' player',
      changeTrackApply 5 ⟨[⟨[1], []⟩, ⟨[2], []⟩], 0, 1, none, 0, -1, -1⟩ 0 none
        = some (st', player') ∧
      st'.data = (⟨[⟨[1], []⟩, ⟨[2], []⟩], 0, 1, none, 0, -1, -1⟩ : SoundState).data ∧
      st'.track_index =
        (if (((⟨[⟨[1], []⟩, ⟨[2], []⟩], 0, 1, none, 0, -1, -1⟩ : SoundState)).data.length : ℤ) ≤ 5
          then (((⟨[⟨[1], []⟩, ⟨[2], []⟩], 0, 1, none, 0, -1, -1⟩ : SoundState)).data.length : ℤ) - 1
          else 5) ∧
      st'.start_index = 0 :=
  (changeTrack_clamps_and_resets 5
    ⟨[⟨[1], []⟩, ⟨[2], []⟩], 0, 1, none, 0, -1, -1⟩ 0 none (by decide)).2 (by decide)

/-- C1: a sequence of `feed(chunk, i, overwrite=False)` commands targeting
an already-existing track index `i` appends: afterwards track `i`'s sample
buffer is its prior buffer followed by the chunks' samples in arrival order,
and its token list is its prior tokens followed by each chunk's tokens with
their sample offsets shifted by the track's sample length at the moment that
chunk was appended (the cumulative prefix length), text offsets unchanged. -/
theorem feedAppend_concatenates (i : ℤ) (now : ℚ) (cs : List Audio)
    (st : SoundState) (player : Player) (tr : Audio)
    (h0 : 0 ≤ i) (htr : st.data.get? i.toNat = some tr) :
    ∃ st' player', applyFeedSeq i now cs (st, player) = some (st', player') ∧
      st'.data.get? i.toNat = some (cs.foldl Audio.concat tr) ∧
      (cs.foldl Audio.concat tr).data = tr.data ++ (cs.map Audio.data).join ∧
      (cs.foldl Audio.concat tr).tokens =
        tr.tokens ++ shiftedTokens (tr.data.length : ℤ) cs := by
  obtain ⟨st', player', happ, hget⟩ :=
    applyFeedSeq_appends i now cs st player tr h0 htr
  exact ⟨st', player', happ, hget, (foldl_concat_spec cs tr).1,
    (foldl_concat_spec cs tr).2⟩

/-- C1 witness: two appends onto an existing one-sample track; the second
chunk's token is shifted by the cumulative prefix length 2. -/
theorem feedAppend_concatenates_witness :
    ((⟨[⟨[5], []⟩], 0, 0, none, 0, -1, -1⟩ : SoundState).data.get? 0
        = some ⟨[5], []⟩) ∧
      ∃ st' player',
        applyFeedSeq 0 0 [⟨[6], []⟩, ⟨[7], [⟨0, 1, 0, 1⟩]⟩]
            (⟨[⟨[5], []⟩], 0, 0, none, 0, -1, -1⟩, none) = some (st', player') ∧
        st'.data.get? 0
          = some ([⟨[6], []⟩, ⟨[7], [⟨0, 1, 0, 1⟩]⟩].foldl Audio.concat ⟨[5], []⟩) ∧
        ([⟨[6], []⟩, ⟨[7], [⟨0, 1, 0, 1⟩]⟩].foldl Audio.concat ⟨[5], []⟩).data
          = [5] ++ ([[6], [7]] : List (List ℚ)).join ∧
        ([⟨[6], []⟩, ⟨[7], [⟨0, 1, 0, 1⟩]⟩].foldl Audio.concat ⟨[5], []⟩).tokens
          = [] ++ shiftedTokens 1 [⟨[6], []⟩, ⟨[7], [⟨0, 1, 0, 1⟩]⟩] := by
  refine ⟨by decide, ?_⟩
  have h := feedAppend_concatenates 0 0 [⟨[6], []⟩, ⟨[7], [⟨0, 1, 0, 1⟩]⟩]
    ⟨[⟨[5], []⟩], 0, 0, none, 0, -1, -1⟩ none ⟨[5], []⟩ (by decide) (by decide)
  simpa using h

/-- C6: the highlight scan publishes the text range of the first token —
scanning forward from the last matched token — whose
`[sample_start, sample_end]` interval contains the effective position, and
publishes the cleared range (`None`) when no such token exists; in
particular, on the example track position 1500 publishes `(6, 10)` and
position 2500 publishes `None`. -/
theorem highlight_scan_publishes_containing_token :
    (∀ (st : SoundState) (now ts0 : ℚ) (track : Audio),
      st.start_timestamp = some ts0 →
      pyListGet st.data st.track_index = some track →
      ∃ st', updateTextIndices st now = some st' ∧
        ((∃ j tok,
            (track.tokens.drop st.token_index).get? j = some tok ∧
            tok.start_index ≤ st.currentIndex now ∧
            st.currentIndex now ≤ tok.end_index ∧
            (∀ m t', m < j → (track.tokens.drop st.token_index).get? m = some t' →
              ¬(t'.start_index ≤ st.currentIndex now ∧
                  st.currentIndex now ≤ t'.end_index)) ∧
            st'.text_start = tok.text_index_start ∧
            st'.text_end = tok.text_index_end ∧
            st'.token_index = st.token_index + j) ∨
          ((∀ m t', (track.tokens.drop st.token_index).get? m = some t' →
              ¬(t'.start_index ≤ st.currentIndex now ∧
                  st.currentIndex now ≤ t'.end_index)) ∧
            st' = st.resetTextIndices ∧ publishedRange st' = none))) ∧
    (∃ st', updateTextIndices (examplePos 1500) 0 = some st' ∧
      publishedRange st' = some (6, 10)) ∧
    (∃ st', updateTextIndices (examplePos 2500) 0 = some st' ∧
      publishedRange st' = none) := by
  have hq : ((0 : ℚ) - 0) * (SAMPLE_RATE : ℚ) = 0 := by norm_num
  have hpy : pyInt 0 = 0 := by decide
  have hcur : ∀ pos : ℤ, (examplePos pos).currentIndex 0 = pos := by
    intro pos
    simp [SoundState.currentIndex, examplePos, hq, hpy]
  refine ⟨?_, ?_, ?_⟩
  · intro st now ts0 track hts htrack
    rcases hft : findToken (st.currentIndex now)
        (track.tokens.drop st.token_index) 0 with _ | ⟨k, tok⟩
    · refine ⟨st.resetTextIndices, ?_, Or.inr ⟨?_, rfl, ?_⟩⟩
      · simp only [updateTextIndices, hts, htrack, hft]
      · exact fun m t' hget => findToken_none_spec _ _ 0 hft m t' hget
      · simp [publishedRange, SoundState.resetTextIndices]
    · obtain ⟨j, hk, hget, h1, h2, hmin⟩ := findToken_some_spec _ _ 0 k tok hft
      refine ⟨{ st with text_start := tok.text_index_start,
                        text_end := tok.text_index_end,
                        token_index := st.token_index + k }, ?_,
        Or.inl ⟨j, tok, hget, h1, h2, hmin, rfl, rfl,
          by show st.token_index + k = st.token_index + j; omega⟩⟩
      simp only [updateTextIndices, hts, htrack, hft]
  · refine ⟨⟨[exampleTrack], 0, 1500, some 0, 1, 6, 10⟩, ?_, by decide⟩
    have hpg : pyListGet [exampleTrack] (0 : ℤ) = some exampleTrack := by decide
    have hft : findToken 1500 exampleTrack.tokens 0
        = some (1, ⟨6, 10, 1000, 2000⟩) := by decide
    simp only [updateTextIndices, examplePos, SoundState.currentIndex, hq, hpy,
      add_zero, List.drop_zero, hpg, hft]
  · refine ⟨⟨[exampleTrack], 0, 2500, some 0, 0, -1, -1⟩, ?_, by decide⟩
    have hpg : pyListGet [exampleTrack] (0 : ℤ) = some exampleTrack := by decide
    have hft : findToken 2500 exampleTrack.tokens 0 = none := by decide
    simp only [updateTextIndices, examplePos, SoundState.currentIndex, hq, hpy,
      add_zero, List.drop_zero, hpg, hft, SoundState.resetTextIndices]

/-- C6 witness: the general scan property applied to the concrete example
state at position 1500. -/
theorem highlight_scan_publishes_containing_token_witness :
    ∃ st', updateTextIndices (examplePos 1500) 0 = some st' ∧
      ((∃ j tok,
          (exampleTrack.tokens.drop (examplePos 1500).token_index).get? j
            = some tok ∧
          tok.start_index ≤ (examplePos 1500).currentIndex 0 ∧
          (examplePos 1500).currentIndex 0 ≤ tok.end_index ∧
          (∀ m t', m < j →
            (exampleTrack.tokens.drop (examplePos 1500).token_index).get? m
              = some t' →
            ¬(t'.start_index ≤ (examplePos 1500).currentIndex 0 ∧
                (examplePos 1500).currentIndex 0 ≤ t'.end_index)) ∧
          st'.text_start = tok.text_index_start ∧
          st'.text_end = tok.text_index_end ∧
          st'.token_index = (examplePos 1500).token_index + j) ∨
        ((∀ m t',
            (exampleTrack.tokens.drop (examplePos 1500).token_index).get? m
              = some t' →
            ¬(t'.start_index ≤ (examplePos 1500).currentIndex 0 ∧
                (examplePos 1500).currentIndex 0 ≤ t'.end_index)) ∧
          st' = (examplePos 1500).resetTextIndices ∧
          publishedRange st' = none)) :=
  highlight_scan_publishes_containing_token.1 (examplePos 1500) 0 0 exampleTrack
    rfl (by decide)

/-- C7 counterexample: with track 0 selected, `feed(chunk, 1,
overwrite=True)` replaces track 1's contents with the chunk's, but the
accompanying restart streams the *selected* track 0 — the device queue ends
up holding track 0's samples `[1]`, not the overwritten track's samples
`[9]` — so playback of track 1 does not restart from position 0. -/
theorem overwrite_restarts_selected_not_target :
    dataInputApply ⟨[9], []⟩ 1 true
        ⟨[⟨[1], []⟩, ⟨[2], []⟩], 0, 0, none, 0, -1, -1⟩ 0 (some [])
      = some (⟨[⟨[1], []⟩, ⟨[9], []⟩], 0, 0, some 0, 0, -1, -1⟩, some [1]) ∧
      ([1] : List ℚ) ≠ (⟨[9], []⟩ : Audio).data := by decide

/-- C7 (amended): `feed(chunk, i, overwrite=True)` on an existing track `i`
operates in two steps.  Whenever the worker's selected index resolves to a
track (which holds for every selection the worker itself produces while the
history is non-empty, `-1` included via Python negative indexing), the
request completes with track `i`'s samples and tokens exactly `chunk`'s,
regardless of prior contents, all other tracks untouched, and the playback
position reset to 0; the restart streams the *currently selected* track —
in particular when track `i` is the selected track (the regenerate flow)
the selected track *is* the fresh `chunk`, so playback of track `i`
restarts from position 0 with a live device's queue refilled with `chunk`'s
samples.  When the selected index does not resolve to a track, the request
instead raises an uncaught `IndexError` during the position reset. -/
theorem overwrite_replaces_track (chunk : Audio) (i : ℤ) (st : SoundState)
    (now : ℚ) (player : Player)
    (h0 : 0 ≤ i) (hlt : i.toNat < st.data.length) :
    (pyListGet (st.data.set i.toNat chunk) st.track_index = none →
      dataInputApply chunk i true st now player = none) ∧
    (∀ sel, pyListGet (st.data.set i.toNat chunk) st.track_index = some sel →
      (st.track_index = i → sel = chunk) ∧
      ∃ st' player',
        dataInputApply chunk i true st now player = some (st', player') ∧
        st'.data.get? i.toNat = some chunk ∧
        (∀ j, j ≠ i.toNat → st'.data.get? j = st.data.get? j) ∧
        st'.start_index = 0 ∧
        (player = none → player' = none) ∧
        (∀ q, player = some q → sel.data ≠ [] →
          player' = some sel.data ∧ st'.start_timestamp = some now)) := by
  have hcond : ¬ ((st.data.length : ℤ) ≤ i) := by omega
  have hset : pyListSet st.data i chunk
      = some (st.data.set i.toNat chunk) := by
    simp [pyListSet, h0, hlt]
  have hnew : (st.data.set i.toNat chunk).get? i.toNat = some chunk :=
    List.get?_set_eq_of_lt _ hlt
  have hkeep : ∀ j, j ≠ i.toNat →
      (st.data.set i.toNat chunk).get? j = st.data.get? j :=
    fun j hj => List.get?_set_ne _ _ (Ne.symm hj)
  constructor
  · intro hnone
    simp [dataInputApply, if_neg hcond, hset, seekAndPlay, hnone]
  · intro sel hsel
    constructor
    · intro hti
      rw [hti, pyListGet_nonneg _ _ h0, hnew] at hsel
      exact (Option.some.inj hsel).symm
    · have hst1 : pyListGet
          ({ st with data := st.data.set i.toNat chunk } : SoundState).data
          ({ st with data := st.data.set i.toNat chunk } : SoundState).track_index
          = some sel := hsel
      obtain ⟨st', player', heq, hdata, htr, -, hsat, hin⟩ :=
        seekAndPlay_spec _ now 0 player sel hst1
      have happly : dataInputApply chunk i true st now player
          = some (st', player') := by
        simp only [dataInputApply, if_neg hcond, hset]
        exact heq
      by_cases hc : sel.data = []
      · have hn : (sel.data.length : ℤ) ≤ max 0 0 := by simp [hc]
        obtain ⟨hsi, hstamp, hpl⟩ := hsat hn
        refine ⟨st', player', happly, ?_, ?_, ?_, ?_, ?_⟩
        · rw [hdata]
          exact hnew
        · intro j hj
          rw [hdata]
          exact hkeep j hj
        · rw [hsi, hc]
          simp
        · intro hp
          rw [hpl]
          exact hp
        · intro q hq hne
          exact absurd hc hne
      · have hn : max (0 : ℤ) 0 < (sel.data.length : ℤ) := by
          have := List.length_pos.mpr hc
          simp
          omega
        obtain ⟨hsi, hnoneP, hsomeP⟩ := hin hn
        refine ⟨st', player', happly, ?_, ?_, ?_, ?_, ?_⟩
        · rw [hdata]
          exact hnew
        · intro j hj
          rw [hdata]
          exact hkeep j hj
        · rw [hsi]
          simp
        · intro hp
          exact (hnoneP hp).2
        · intro q hq hne
          obtain ⟨hts, hpl⟩ := hsomeP q hq
          refine ⟨?_, hts⟩
          rw [hpl]
          simp

/-- C7 witness: two instances of the amended property — the regenerate flow
(overwrite of the selected, streaming track 0, queue refilled with the
chunk's samples) and an overwrite of a non-selected existing track 1 (track
replaced, other track untouched, position reset to 0). -/
theorem overwrite_replaces_track_witness :
    ((⟨[⟨[1], []⟩], 0, 1, some 0, 0, -1, -1⟩ : SoundState).track_index = 0 →
        (⟨[7, 8], [⟨0, 1, 0, 2⟩]⟩ : Audio) = ⟨[7, 8], [⟨0, 1, 0, 2⟩]⟩) ∧
    (∃ st' player',
      dataInputApply ⟨[7, 8], [⟨0, 1, 0, 2⟩]⟩ 0 true
          ⟨[⟨[1], []⟩], 0, 1, some 0, 0, -1, -1⟩ 2 (some [5])
        = some (st', player') ∧
      st'.data.get? (0 : ℤ).toNat = some ⟨[7, 8], [⟨0, 1, 0, 2⟩]⟩ ∧
      (∀ j, j ≠ (0 : ℤ).toNat →
        st'.data.get? j
          = (⟨[⟨[1], []⟩], 0, 1, some 0, 0, -1, -1⟩ : SoundState).data.get? j) ∧
      st'.start_index = 0 ∧
      ((some [5] : Player) = none → player' = none) ∧
      (∀ q, (some [5] : Player) = some q →
        (⟨[7, 8], [⟨0, 1, 0, 2⟩]⟩ : Audio).data ≠ [] →
        player' = some (⟨[7, 8], [⟨0, 1, 0, 2⟩]⟩ : Audio).data ∧
        st'.start_timestamp = some 2)) ∧
    (∃ st' player',
      dataInputApply ⟨[9], []⟩ 1 true
          ⟨[⟨[1], []⟩, ⟨[2], []⟩], 0, 0, none, 0, -1, -1⟩ 0 none
        = some (st', player') ∧
      st'.data.get? (1 : ℤ).toNat = some ⟨[9], []⟩ ∧
      (∀ j, j ≠ (1 : ℤ).toNat →
        st'.data.get? j
          = (⟨[⟨[1], []⟩, ⟨[2], []⟩], 0, 0, none, 0, -1, -1⟩ :
              SoundState).data.get? j) ∧
      st'.start_index = 0 ∧
      ((none : Player) = none → player' = none) ∧
      (∀ q, (none : Player) = some q → (⟨[1], []⟩ : Audio).data ≠ [] →
        player' = some (⟨[1], []⟩ : Audio).data ∧
        st'.start_timestamp = some 0)) :=
  ⟨((overwrite_replaces_track ⟨[7, 8], [⟨0, 1, 0, 2⟩]⟩ 0
      ⟨[⟨[1], []⟩], 0, 1, some 0, 0, -1, -1⟩ 2 (some [5])
      (by decide) (by decide)).2 ⟨[7, 8], [⟨0, 1, 0, 2⟩]⟩ (by decide)).1,
    ((overwrite_replaces_track ⟨[7, 8], [⟨0, 1, 0, 2⟩]⟩ 0
      ⟨[⟨[1], []⟩], 0, 1, some 0, 0, -1, -1⟩ 2 (some [5])
      (by decide) (by decide)).2 ⟨[7, 8], [⟨0, 1, 0, 2⟩]⟩ (by decide)).2,
    ((overwrite_replaces_track ⟨[9], []⟩ 1
      ⟨[⟨[1], []⟩, ⟨[2], []⟩], 0, 0, none, 0, -1, -1⟩ 0 none
      (by decide) (by decide)).2 ⟨[1], []⟩ (by decide)).2⟩

/-- C4 counterexample: the worker converts seconds with Python `int()`
(truncation toward zero), not `round`.  Seeking `s = 7/100000` seconds
(1.68 samples at 24000 Hz) from position 0 on a 3-sample idle track lands on
sample 1, while `clamp(position_before + round(s * sample_rate), 0,
track_length)` is 2. -/
theorem seekSecs_uses_int_not_round :
    seekSecsApply (7 / 100000) ⟨[⟨[0, 0, 0], []⟩], 0, 0, none, 0, -1, -1⟩ 0 none
        = some (⟨[⟨[0, 0, 0], []⟩], 0, 1, none, 0, -1, -1⟩, none) ∧
      (⟨[⟨[0, 0, 0], []⟩], 0, 1, none, 0, -1, -1⟩ : SoundState).currentIndex 0
        ≠ min (max ((⟨[⟨[0, 0, 0], []⟩], 0, 0, none, 0, -1, -1⟩ :
                SoundState).currentIndex 0
              + pyRound ((7 / 100000 : ℚ) * (SAMPLE_RATE : ℚ))) 0)
            ((⟨[0, 0, 0], []⟩ : Audio).data.length : ℤ) := by
  have hpy : pyInt ((7 / 100000 : ℚ) * (SAMPLE_RATE : ℚ)) = 1 := by
    norm_num [pyInt, SAMPLE_RATE]
    decide
  have hround : pyRound ((7 / 100000 : ℚ) * (SAMPLE_RATE : ℚ)) = 2 := by
    norm_num [pyRound, SAMPLE_RATE]
  constructor
  · simp [seekSecsApply, seekAndPlay, hpy, pyListGet]
  · rw [hround]
    simp [SoundState.currentIndex]

/-- C4 (amended): seconds are converted to samples with Python `int()`
(truncation toward zero), not `round`.  When not streaming, seeking `s`
seconds then re-reading the effective position yields
`clamp(start_index + int(s * sample_rate), 0, track_length)`.  When
streaming, the target is `start_index + int((elapsed + s) * sample_rate)` —
the truncation applied to the whole sum, not to `s` alone — clamped below
at 0, and (a) if that target stays below the track length the re-read
position is exactly the target, but (b) if it reaches the track length the
position is set to the track length while the stale timestamp is kept, so
the re-read effective position is `track_length + int(elapsed *
sample_rate)` rather than the clamped value. -/
theorem seekSecs_truncates_and_clamps (s : ℚ) (st : SoundState) (now : ℚ)
    (player : Player) (track : Audio)
    (hsel : 0 ≤ st.track_index)
    (htrack : pyListGet st.data st.track_index = some track) :
    (st.start_timestamp = none →
      ∃ st' player', seekSecsApply s st now player = some (st', player') ∧
        st'.currentIndex now
          = min (max (st.start_index + pyInt (s * (SAMPLE_RATE : ℚ))) 0)
              (track.data.length : ℤ)) ∧
    (∀ ts0 q, st.start_timestamp = some ts0 → player = some q →
      ∃ st' player', seekSecsApply s st now player = some (st', player') ∧
        ((track.data.length : ℤ) ≤
            max (st.start_index + pyInt ((now - ts0 + s) * (SAMPLE_RATE : ℚ))) 0 →
          st'.currentIndex now
            = (track.data.length : ℤ)
              + pyInt ((now - ts0) * (SAMPLE_RATE : ℚ))) ∧
        (max (st.start_index + pyInt ((now - ts0 + s) * (SAMPLE_RATE : ℚ))) 0
            < (track.data.length : ℤ) →
          st'.currentIndex now
            = max (st.start_index
                + pyInt ((now - ts0 + s) * (SAMPLE_RATE : ℚ))) 0)) := by
  have hnotneg : ¬ (st.track_index < 0) := not_lt.mpr hsel
  have hz0 : pyInt (0 : ℚ) = 0 := by decide
  constructor
  · intro hts
    obtain ⟨st', player', heq, hdata, htr, -, hsat, hin⟩ :=
      seekAndPlay_spec st now (pyInt (s * (SAMPLE_RATE : ℚ)) + st.start_index)
        player track htrack
    refine ⟨st', player', ?_, ?_⟩
    · rw [seekSecsApply, if_neg hnotneg, hts]
      exact heq
    · rw [add_comm (pyInt (s * (SAMPLE_RATE : ℚ))) st.start_index] at hsat hin
      by_cases hn : (track.data.length : ℤ)
          ≤ max (st.start_index + pyInt (s * (SAMPLE_RATE : ℚ))) 0
      · obtain ⟨hsi, hstamp, -⟩ := hsat hn
        have hst : st'.start_timestamp = none := by rw [hstamp, hts]
        have hcur : st'.currentIndex now = st'.start_index := by
          simp [SoundState.currentIndex, hst]
        rw [hcur, hsi]
        omega
      · obtain ⟨hsi, hnoneP, hsomeP⟩ := hin (by omega)
        cases player with
        | none =>
          obtain ⟨hstamp, -⟩ := hnoneP rfl
          have hst : st'.start_timestamp = none := by rw [hstamp, hts]
          have hcur : st'.currentIndex now = st'.start_index := by
            simp [SoundState.currentIndex, hst]
          rw [hcur, hsi]
          omega
        | some q =>
          obtain ⟨hstamp, -⟩ := hsomeP q rfl
          have hcur : st'.currentIndex now = st'.start_index := by
            simp [SoundState.currentIndex, hstamp, hz0]
          rw [hcur, hsi]
          omega
  · intro ts0 q hts hp
    obtain ⟨st', player', heq, hdata, htr, -, hsat, hin⟩ :=
      seekAndPlay_spec st now
        (pyInt ((now - ts0 + s) * (SAMPLE_RATE : ℚ)) + st.start_index)
        player track htrack
    refine ⟨st', player', ?_, ?_, ?_⟩
    · rw [seekSecsApply, if_neg hnotneg, hts, hp]
      rw [hp] at heq
      exact heq
    · intro hn
      rw [add_comm (pyInt ((now - ts0 + s) * (SAMPLE_RATE : ℚ))) st.start_index]
        at hsat
      obtain ⟨hsi, hstamp, -⟩ := hsat hn
      have hst : st'.start_timestamp = some ts0 := by rw [hstamp, hts]
      have hcur : st'.currentIndex now
          = st'.start_index + pyInt ((now - ts0) * (SAMPLE_RATE : ℚ)) := by
        simp [SoundState.currentIndex, hst]
      rw [hcur, hsi]
    · intro hn
      rw [add_comm (pyInt ((now - ts0 + s) * (SAMPLE_RATE : ℚ))) st.start_index]
        at hin
      obtain ⟨hsi, -, hsomeP⟩ := hin hn
      obtain ⟨hstamp, -⟩ := hsomeP q hp
      have hcur : st'.currentIndex now = st'.start_index := by
        simp [SoundState.currentIndex, hstamp, hz0]
      rw [hcur, hsi]

/-- C4 witness: an idle (non-streaming) 3-sample track; a 1-second seek
(24000 samples) truncates and clamps to the track length. -/
theorem seekSecs_truncates_and_clamps_witness :
    ∃ st' player',
      seekSecsApply 1 ⟨[⟨[0, 0, 0], []⟩], 0, 0, none, 0, -1, -1⟩ 0 none
        = some (st', player') ∧
      st'.currentIndex 0
        = min (max ((⟨[⟨[0, 0, 0], []⟩], 0, 0, none, 0, -1, -1⟩ :
              SoundState).start_index + pyInt (1 * (SAMPLE_RATE : ℚ))) 0)
            ((⟨[0, 0, 0], []⟩ : Audio).data.length : ℤ) :=
  (seekSecs_truncates_and_clamps 1 ⟨[⟨[0, 0, 0], []⟩], 0, 0, none, 0, -1, -1⟩
    0 none ⟨[0, 0, 0], []⟩ (by decide) (by decide)).1 rfl

/-- C8: token-offset translation is a best-effort forward alignment:
(1) a successful forward search returns a position at or after the anchor
where the token's text occurs; (2) each engine token is laid out at the
found position when the search succeeds and at the kept previous anchor
when it fails (result `< 0`), and in both cases the anchor then advances
past the token's text plus its trailing whitespace; (3) consequently the
text spans of all tokens emitted across one request are non-decreasing. -/
theorem token_search_anchored_monotone :
    (∀ (s sub : List Char) (start : ℕ), 0 ≤ pyFindFrom s sub start →
      (start : ℤ) ≤ pyFindFrom s sub start ∧
      sub.isPrefixOf (List.drop (pyFindFrom s sub start).toNat s) = true) ∧
    (∀ (text : List Char) (off anchor : ℕ) (tok : EngineToken)
        (toks : List EngineToken),
      translateTokens text off anchor (tok :: toks)
        = ((emittedToken off
              (if 0 ≤ pyFindFrom text tok.text anchor
                then (pyFindFrom text tok.text anchor).toNat else anchor) tok)
            ++ (translateTokens text off
                ((if 0 ≤ pyFindFrom text tok.text anchor
                  then (pyFindFrom text tok.text anchor).toNat else anchor)
                  + tok.text.length + tok.whitespace.length) toks).1,
            (translateTokens text off
              ((if 0 ≤ pyFindFrom text tok.text anchor
                then (pyFindFrom text tok.text anchor).toNat else anchor)
                + tok.text.length + tok.whitespace.length) toks).2)) ∧
    (∀ (text : List Char) (off : ℕ) (index generation : ℤ) (ow : Bool)
        (results : List GenResult) (anchor : ℕ),
      List.Pairwise (fun a b : Token => a.text_index_start ≤ b.text_index_start)
        (emittedTokens
          (emitOutputs text off index generation ow true anchor results))) :=
  ⟨pyFindFrom_forward,
    fun _ _ _ _ _ => rfl,
    fun text off index generation ow results anchor =>
      (emitOutputs_tokens_mono text off index generation ow results true anchor).2⟩

/-- C8 witness: the forward-search clause at a concrete haystack/needle. -/
theorem token_search_anchored_monotone_witness :
    (0 : ℤ) ≤ pyFindFrom ['a', 'b', ' ', 'c'] ['c'] 1 ∧
      ((1 : ℕ) : ℤ) ≤ pyFindFrom ['a', 'b', ' ', 'c'] ['c'] 1 ∧
      List.isPrefixOf ['c']
        (List.drop (pyFindFrom ['a', 'b', ' ', 'c'] ['c'] 1).toNat
          ['a', 'b', ' ', 'c']) = true :=
  ⟨by decide,
    token_search_anchored_monotone.1 ['a', 'b', ' ', 'c'] ['c'] 1 (by decide)⟩

end KokoroTui
